import Mathlib

/-!
Verification of the attribution-reconciliation and time-series delta engine
of `src/analysis/data_processing.py`.

The three core functions are embedded as pure Lean functions over lists of
records:

* `calculate_correct_totals` — reconciliation of the aggregate referral table
  (scaling per-source stage counts down to the de-duplicated `(all)` total);
* `get_daily_new_applications` — conversion of cumulative daily counters into
  per-day increments (pandas `sort_values` / `unique` / `diff().fillna`);
* `get_total_daily_traffic` — per-date sums of the daily traffic table with
  the `(all)` sentinel removed.

Numeric cells are embedded as `Nat` (the loaders coerce every numeric column
to integers, substituting `0` for blanks).  Machine arithmetic is embedded
exactly where the code uses it: pandas column sums are int64 and wrap
silently, embedded as the exact sum reduced mod `2^64` with signed
interpretation (`wrap64`); the scale factor `total_count / sum_total`, the
products `sum_X * scale`, the advancement rate, and the `diff()` columns are
binary64 floats, embedded by a dyadic model (`F64`, a mantissa-exponent
pair) whose division and multiplication round the exact rational result to
53 significant bits with ties to even, exactly as IEEE-754 does in the
normal range (the reachable values here never overflow or go subnormal).
`int(x)` is truncation toward zero.  pandas' multi-key `sort_values` on
`['Source', 'Date']` is a stable lexicographic sort (lexsort), embedded by
the stable insertion sort `sortBy` with strings compared by character codes.
-/

/-- Lexicographic strict comparison of strings by character code, mirroring
the ordering pandas uses when sorting the `Source` column. -/
def charsLt : List Char → List Char → Bool
  | _, [] => false
  | [], _ :: _ => true
  | a :: as, b :: bs =>
      decide (a.toNat < b.toNat) || (decide (a.toNat = b.toNat) && charsLt as bs)

def srcLt (a b : String) : Bool := charsLt a.data b.data

/-- Stable insertion of `x` into `l`: `x` is placed before the first element
that is not strictly smaller, so equal elements keep their relative order. -/
def insertBy (le : α → α → Bool) (x : α) : List α → List α
  | [] => [x]
  | y :: ys => if le y x && !le x y then y :: insertBy le x ys else x :: y :: ys

/-- Stable sort (insertion sort): embeds pandas' stable `sort_values`. -/
def sortBy (le : α → α → Bool) : List α → List α
  | [] => []
  | x :: xs => insertBy le x (sortBy le xs)

/-- First-occurrence distinct values of a list, mirroring pandas
`Series.unique()`. -/
def pandasUniqueGo [DecidableEq α] (seen : List α) : List α → List α
  | [] => []
  | s :: rest =>
      if s ∈ seen then pandasUniqueGo seen rest
      else s :: pandasUniqueGo (s :: seen) rest

def pandasUnique [DecidableEq α] (l : List α) : List α := pandasUniqueGo [] l

theorem charsLt_irrefl (l : List Char) : charsLt l l = false := by
  induction l with
  | nil => rfl
  | cons a as ih => simp [charsLt, ih]

theorem charsLt_trans : ∀ {a b c : List Char},
    charsLt a b = true → charsLt b c = true → charsLt a c = true := by
  intro a
  induction a with
  | nil =>
    intro b c hab hbc
    cases b with
    | nil => cases c <;> simp_all [charsLt]
    | cons y ys => cases c with
      | nil => simp_all [charsLt]
      | cons z zs => simp [charsLt]
  | cons x xs ih =>
    intro b c hab hbc
    cases b with
    | nil => simp_all [charsLt]
    | cons y ys =>
      cases c with
      | nil => simp_all [charsLt]
      | cons z zs =>
        simp only [charsLt, Bool.or_eq_true, Bool.and_eq_true,
          decide_eq_true_eq] at hab hbc ⊢
        rcases hab with h1 | ⟨h1, h1'⟩ <;> rcases hbc with h2 | ⟨h2, h2'⟩
        · exact Or.inl (Nat.lt_trans h1 h2)
        · exact Or.inl (h2 ▸ h1)
        · exact Or.inl (h1 ▸ h2)
        · exact Or.inr ⟨h1.trans h2, ih h1' h2'⟩

theorem char_toNat_inj {a b : Char} (h : a.toNat = b.toNat) : a = b := by
  have h' := congrArg Char.ofNat h
  rwa [Char.ofNat_toNat, Char.ofNat_toNat] at h'

theorem charsLt_connex : ∀ {a b : List Char},
    charsLt a b = false → charsLt b a = false → a = b := by
  intro a
  induction a with
  | nil =>
    intro b hab hba
    cases b with
    | nil => rfl
    | cons y ys => simp [charsLt] at hab
  | cons x xs ih =>
    intro b hab hba
    cases b with
    | nil => simp [charsLt] at hba
    | cons y ys =>
      simp only [charsLt, Bool.or_eq_false_iff, Bool.and_eq_false_iff,
        decide_eq_false_iff_not, decide_eq_true_eq] at hab hba
      obtain ⟨hlt1, h1⟩ := hab
      obtain ⟨hlt2, h2⟩ := hba
      have hxy : x.toNat = y.toNat := by omega
      have hx : x = y := char_toNat_inj hxy
      subst hx
      have hxs : charsLt xs ys = false := by
        rcases h1 with h | h
        · exact absurd rfl h
        · exact h
      have hys : charsLt ys xs = false := by
        rcases h2 with h | h
        · exact absurd rfl h
        · exact h
      rw [ih hxs hys]

theorem string_eq_of_data_eq {s t : String} (h : s.data = t.data) : s = t := by
  cases s; cases t; exact congrArg String.mk h

theorem srcLt_irrefl (s : String) : srcLt s s = false := charsLt_irrefl s.data

theorem srcLt_trans {a b c : String} (h1 : srcLt a b = true)
    (h2 : srcLt b c = true) : srcLt a c = true := charsLt_trans h1 h2

theorem srcLt_connex {a b : String} (h1 : srcLt a b = false)
    (h2 : srcLt b a = false) : a = b :=
  string_eq_of_data_eq (charsLt_connex h1 h2)

theorem insertBy_perm (le : α → α → Bool) (x : α) :
    ∀ l : List α, (insertBy le x l).Perm (x :: l) := by
  intro l
  induction l with
  | nil => simp [insertBy]
  | cons y ys ih =>
    simp only [insertBy]
    by_cases h : (le y x && !le x y) = true
    · rw [if_pos h]
      exact (ih.cons y).trans (List.Perm.swap x y ys)
    · simp [h]

theorem sortBy_perm (le : α → α → Bool) :
    ∀ l : List α, (sortBy le l).Perm l := by
  intro l
  induction l with
  | nil => simp [sortBy]
  | cons x xs ih =>
    simpa [sortBy] using (insertBy_perm le x (sortBy le xs)).trans (ih.cons x)

theorem mem_insertBy {le : α → α → Bool} {x a : α} {l : List α} :
    a ∈ insertBy le x l ↔ a = x ∨ a ∈ l := by
  rw [(insertBy_perm le x l).mem_iff]
  simp

theorem pairwise_insertBy {le : α → α → Bool}
    (htotal : ∀ a b, le a b = true ∨ le b a = true)
    (htrans : ∀ a b c, le a b = true → le b c = true → le a c = true)
    {x : α} : ∀ {l : List α}, l.Pairwise (fun a b => le a b = true) →
    (insertBy le x l).Pairwise (fun a b => le a b = true) := by
  intro l
  induction l with
  | nil => intro _; simp [insertBy]
  | cons y ys ih =>
    intro hl
    rw [List.pairwise_cons] at hl
    obtain ⟨hy, hys⟩ := hl
    simp only [insertBy]
    by_cases h : (le y x && !le x y) = true
    · rw [if_pos h]
      rw [Bool.and_eq_true, Bool.not_eq_true', Bool.eq_false_iff] at h
      rw [List.pairwise_cons]
      refine ⟨?_, ih hys⟩
      intro z hz
      rcases mem_insertBy.mp hz with rfl | hz
      · exact h.1
      · exact hy z hz
    · rw [if_neg h]
      rw [List.pairwise_cons]
      have hxy : le x y = true := by
        rcases htotal x y with h' | h'
        · exact h'
        · by_contra hxy
          exact h (by simp [h', hxy])
      refine ⟨?_, List.pairwise_cons.mpr ⟨hy, hys⟩⟩
      intro z hz
      rcases List.mem_cons.mp hz with rfl | hz
      · exact hxy
      · exact htrans x y z hxy (hy z hz)

theorem pairwise_sortBy {le : α → α → Bool}
    (htotal : ∀ a b, le a b = true ∨ le b a = true)
    (htrans : ∀ a b c, le a b = true → le b c = true → le a c = true)
    (l : List α) : (sortBy le l).Pairwise (fun a b => le a b = true) := by
  induction l with
  | nil => simp [sortBy]
  | cons x xs ih => exact pairwise_insertBy htotal htrans ih

theorem sortBy_eq_of_pairwise {le : α → α → Bool} :
    ∀ {l : List α}, l.Pairwise (fun a b => le a b = true) → sortBy le l = l := by
  intro l
  induction l with
  | nil => intro _; rfl
  | cons x xs ih =>
    intro hl
    rw [List.pairwise_cons] at hl
    obtain ⟨hx, hxs⟩ := hl
    simp only [sortBy, ih hxs]
    cases xs with
    | nil => rfl
    | cons y ys =>
      have : le x y = true := hx y (by simp)
      simp [insertBy, this]

theorem mem_pandasUniqueGo [DecidableEq α] {a : α} :
    ∀ {l seen : List α}, a ∈ pandasUniqueGo seen l ↔ a ∈ l ∧ a ∉ seen := by
  intro l
  induction l with
  | nil => intro seen; simp [pandasUniqueGo]
  | cons s rest ih =>
    intro seen
    simp only [pandasUniqueGo]
    by_cases hs : s ∈ seen
    · rw [if_pos hs, ih]
      constructor
      · rintro ⟨h1, h2⟩; exact ⟨List.mem_cons_of_mem s h1, h2⟩
      · rintro ⟨h1, h2⟩
        rcases List.mem_cons.mp h1 with rfl | h1
        · exact absurd hs h2
        · exact ⟨h1, h2⟩
    · rw [if_neg hs]
      by_cases has : a = s
      · subst has
        simp [List.mem_cons, ih, hs]
      · simp only [List.mem_cons, ih]
        tauto

theorem mem_pandasUnique [DecidableEq α] {a : α} {l : List α} :
    a ∈ pandasUnique l ↔ a ∈ l := by
  simp [pandasUnique, mem_pandasUniqueGo]

theorem nodup_pandasUniqueGo [DecidableEq α] :
    ∀ {l seen : List α}, (pandasUniqueGo seen l).Nodup := by
  intro l
  induction l with
  | nil => intro seen; simp [pandasUniqueGo]
  | cons s rest ih =>
    intro seen
    simp only [pandasUniqueGo]
    by_cases hs : s ∈ seen
    · rw [if_pos hs]; exact ih
    · rw [if_neg hs]
      refine List.nodup_cons.mpr ⟨?_, ih⟩
      intro hc
      exact (mem_pandasUniqueGo.mp hc).2 (List.mem_cons_self s seen)

theorem nodup_pandasUnique [DecidableEq α] (l : List α) :
    (pandasUnique l).Nodup := nodup_pandasUniqueGo

/-!
Machine-arithmetic core.

`wrap64` is the value of an int64 accumulation of a non-negative exact sum
(numpy/pandas integer sums wrap silently mod `2^64`).

The binary64 model: a float value is a dyadic rational `m * 2^e` (`F64`).
`fl53N`/`fl53I` round an integer to 53 significant bits with ties to even —
the value of converting an int64 to float64.  `roundPosQ p q` rounds the
exact positive rational `p / q` to 53 significant bits (the value of a
correctly-rounded IEEE division); `flQ` adds the signs.  `flDyProd` rounds
an exact product `M * 2^e`; `truncF` is Python's `int()` (truncation toward
zero).  Exponents are unbounded: the values reachable from int64 inputs in
this code stay far inside the binary64 normal range, where IEEE arithmetic
agrees with this model.
-/

def wrap64 (n : Nat) : Int :=
  if n % 2 ^ 64 < 2 ^ 63 then ((n % 2 ^ 64 : Nat) : Int)
  else ((n % 2 ^ 64 : Nat) : Int) - 2 ^ 64

def bitsAux : Nat → Nat → Nat
  | 0, _ => 0
  | fuel + 1, n => if n ≤ 1 then 0 else bitsAux fuel (n / 2) + 1

/-- Position of the most significant bit: `bitLen n = Nat.log2 n` for
positive `n`, written with explicit fuel so it reduces in the kernel. -/
def bitLen (n : Nat) : Nat := bitsAux n n

/-- Round `A / B` to the nearest integer, ties to even (`B > 0`). -/
def roundEven (A B : Nat) : Nat :=
  let q := A / B
  let r := A % B
  if B < 2 * r then q + 1
  else if 2 * r < B then q
  else if q % 2 = 0 then q else q + 1

/-- Value of rounding a non-negative integer to binary64 (53 significant
bits, ties to even). -/
def fl53N (n : Nat) : Nat :=
  if n < 2 ^ 53 then n
  else
    let k := bitLen n - 52
    roundEven n (2 ^ k) * 2 ^ k

def fl53I (n : Int) : Int :=
  if 0 ≤ n then (fl53N n.toNat : Int) else -(fl53N (-n).toNat : Int)

structure F64 where
  m : Int
  e : Int
deriving DecidableEq

def F64.toRat (x : F64) : ℚ :=
  if 0 ≤ x.e then (x.m : ℚ) * 2 ^ x.e.toNat else (x.m : ℚ) / 2 ^ (-x.e).toNat

def roundPosQCore (p q : Nat) (shift : Int) : Nat :=
  let A := if 0 ≤ shift then p * 2 ^ shift.toNat else p
  let B := if 0 ≤ shift then q else q * 2 ^ (-shift).toNat
  roundEven A B

/-- Round the positive rational `p / q` to 53 significant bits, ties to
even: the first candidate exponent puts the mantissa in `[2^51, 2^53]`, and
one adjustment step lands it in `[2^52, 2^53]`. -/
def roundPosQ (p q : Nat) : F64 :=
  let shift : Int := 52 - ((bitLen p : Int) - (bitLen q : Int))
  let m0 := roundPosQCore p q shift
  if m0 < 2 ^ 52 then ⟨(roundPosQCore p q (shift + 1) : Int), -(shift + 1)⟩
  else ⟨(m0 : Int), -shift⟩

/-- Correctly-rounded binary64 quotient of two exact integers. -/
def flQ (p q : Int) : F64 :=
  if p = 0 ∨ q = 0 then ⟨0, 0⟩
  else
    let r := roundPosQ p.natAbs q.natAbs
    if (decide (p < 0)) != (decide (q < 0)) then ⟨-r.m, r.e⟩ else r

/-- Correctly-rounded binary64 value of the exact product `M * 2^e`. -/
def flDyProd (M : Int) (e : Int) : F64 :=
  if 0 ≤ e then ⟨fl53I (M * 2 ^ e.toNat), 0⟩ else flQ M (2 ^ (-e).toNat)

/-- Python `int(x)`: truncation toward zero of the float value. -/
def truncF (x : F64) : Int :=
  if 0 ≤ x.e then x.m * 2 ^ x.e.toNat
  else if 0 ≤ x.m then ((x.m.toNat / 2 ^ (-x.e).toNat : Nat) : Int)
  else -(((-x.m).toNat / 2 ^ (-x.e).toNat : Nat) : Int)

/-- `total_count / sum_total` as numpy evaluates it: both int64 operands are
converted to binary64, then divided with one correct rounding. -/
def scale64 (t : Nat) (s : Int) : F64 := flQ (fl53N t) (fl53I s)

/-- `int(sum_X * scale)`: the int64 sum is converted to binary64, multiplied
by the scale with one correct rounding, then truncated toward zero. -/
def est64 (sumX : Int) (t : Nat) (s : Int) : Int :=
  truncF (flDyProd (fl53I sumX * (scale64 t s).m) (scale64 t s).e)

/-- `est_advanced / total_count * 100`: CPython true-divides the two exact
integers with a single correct rounding, then multiplies by 100 (exact) with
one more rounding. -/
def rate64 (est : Int) (total : Nat) : F64 :=
  flDyProd ((flQ est total).m * 100) (flQ est total).e

theorem wrap64_eq_self {n : Nat} (h : n < 2 ^ 63) : wrap64 n = n := by
  unfold wrap64
  have h2 : n % 2 ^ 64 = n := Nat.mod_eq_of_lt (by omega)
  rw [h2, if_pos h]

theorem fl53N_eq_self {n : Nat} (h : n < 2 ^ 53) : fl53N n = n := by
  rw [fl53N, if_pos h]

theorem fl53I_nonneg {n : Int} (h : 0 ≤ n) : 0 ≤ fl53I n := by
  rw [fl53I, if_pos h]
  exact Int.natCast_nonneg _

theorem fl53I_eq_self {n : Int} (h1 : -(2 ^ 53) < n) (h2 : n < 2 ^ 53) :
    fl53I n = n := by
  unfold fl53I
  by_cases hn : 0 ≤ n
  · rw [if_pos hn, fl53N_eq_self (by omega)]
    omega
  · rw [if_neg hn, fl53N_eq_self (by omega)]
    omega

theorem fl53I_natCast {n : Nat} (h : n < 2 ^ 53) : fl53I (n : Int) = n :=
  fl53I_eq_self (by omega) (by exact_mod_cast h)

theorem roundPosQ_m_nonneg (p q : Nat) : 0 ≤ (roundPosQ p q).m := by
  unfold roundPosQ
  dsimp only
  split
  · exact Int.natCast_nonneg _
  · exact Int.natCast_nonneg _

theorem flQ_m_nonneg {p q : Int} (hp : 0 ≤ p) (hq : 0 ≤ q) : 0 ≤ (flQ p q).m := by
  unfold flQ
  by_cases h0 : p = 0 ∨ q = 0
  · simp [h0]
  · have hp' : ¬ p < 0 := by omega
    have hq' : ¬ q < 0 := by omega
    simp [h0, hp', hq', roundPosQ_m_nonneg]

theorem flDyProd_m_nonneg {M e : Int} (hM : 0 ≤ M) : 0 ≤ (flDyProd M e).m := by
  unfold flDyProd
  split
  · exact fl53I_nonneg (by positivity)
  · exact flQ_m_nonneg hM (by positivity)

theorem truncF_nonneg {x : F64} (hm : 0 ≤ x.m) : 0 ≤ truncF x := by
  unfold truncF
  split
  · exact mul_nonneg hm (by positivity)
  · exact Int.natCast_nonneg _

theorem toRat_nonneg {x : F64} (hm : 0 ≤ x.m) : 0 ≤ F64.toRat x := by
  unfold F64.toRat
  have hm' : (0 : ℚ) ≤ (x.m : ℚ) := by exact_mod_cast hm
  split
  · positivity
  · positivity

theorem est64_nonneg {sumX : Int} {t : Nat} {s : Int} (hx : 0 ≤ sumX)
    (hs : 0 ≤ s) : 0 ≤ est64 sumX t s :=
  truncF_nonneg (flDyProd_m_nonneg
    (mul_nonneg (fl53I_nonneg hx)
      (flQ_m_nonneg (Int.natCast_nonneg _) (fl53I_nonneg hs))))

theorem rate64_m_nonneg {est : Int} {total : Nat} (h : 0 ≤ est) :
    0 ≤ (rate64 est total).m :=
  flDyProd_m_nonneg
    (mul_nonneg (flQ_m_nonneg h (Int.natCast_nonneg _)) (by norm_num))

/-!
Reconciliation Component: `calculate_correct_totals` from
`src/analysis/data_processing.py` (lines 74-126).

An `AggRow` is one row of the aggregated referral-sources table
(`10.0 referral sources-Grid view.csv` after `load_referral_sources`, which
coerces `Count`, `Total applications` and the three `Stage 2` columns to
non-negative integers, filling blanks with 0).
-/

structure AggRow where
  source : String
  count : Nat
  totalApplications : Nat
  stage2Advanced : Nat
  stage2Rejected : Nat
  stage2Pending : Nat
deriving DecidableEq

structure CorrectedTotals where
  count : Nat
  advanced : Int
  rejected : Int
  pending : Int
  advancement_rate : F64
deriving DecidableEq

/-- `referral_df[~referral_df['Source'].isin(['(all)', '(no response)'])]`. -/
def sourcesOnly (rows : List AggRow) : List AggRow :=
  rows.filter (fun r => !(r.source == "(all)" || r.source == "(no response)"))

/-- `sources_only['Count'].sum()`. -/
def rawSum (rows : List AggRow) : Nat :=
  ((sourcesOnly rows).map AggRow.count).sum

/-- `sources_only['Stage 2 advanced'].sum()`. -/
def rawAdvanced (rows : List AggRow) : Nat :=
  ((sourcesOnly rows).map AggRow.stage2Advanced).sum

/-- `sources_only['Stage 2 rejected'].sum()`. -/
def rawRejected (rows : List AggRow) : Nat :=
  ((sourcesOnly rows).map AggRow.stage2Rejected).sum

/-- `sources_only['Stage 2 pending'].sum()`. -/
def rawPending (rows : List AggRow) : Nat :=
  ((sourcesOnly rows).map AggRow.stage2Pending).sum

/-- First row of `referral_df[referral_df['Source'] == '(all)']`, i.e. the
row the code reads `Count` from with `.iloc[0]` after the `len > 0` check. -/
def allRow? (rows : List AggRow) : Option AggRow :=
  (rows.filter (fun r => r.source == "(all)")).head?

/-- Embedding of `calculate_correct_totals`.  Python returns `None` when the
table has no `(all)` row; that failure value is embedded as `none`
(the spec's `MissingTotalRow`).  The column sums are int64 and wrap
(`wrap64`); `sum_X * scale` with `scale = total_count / sum_total` is
binary64 arithmetic (`est64`), truncated toward zero by `int()`; the
advancement rate `est_advanced / total_count * 100` is binary64 (`rate64`),
and the `else 0` branch is the Python literal `0`. -/
def calculate_correct_totals (rows : List AggRow) : Option CorrectedTotals :=
  let total_apps := (rows.head?.map AggRow.totalApplications).getD 0
  match allRow? rows with
  | none => none
  | some a =>
    let total_count := a.count
    let sum_advanced := wrap64 (rawAdvanced rows)
    let sum_rejected := wrap64 (rawRejected rows)
    let sum_pending := wrap64 (rawPending rows)
    let sum_total := wrap64 (rawSum rows)
    let est_advanced :=
      if 0 < sum_total then est64 sum_advanced total_count sum_total else 0
    let est_rejected :=
      if 0 < sum_total then est64 sum_rejected total_count sum_total else 0
    let est_pending :=
      if 0 < sum_total then est64 sum_pending total_count sum_total else 0
    some
      { count := total_count
        advanced := est_advanced
        rejected := est_rejected
        pending := est_pending
        advancement_rate :=
          if 0 < total_count then rate64 est_advanced total_count else ⟨0, 0⟩ }

theorem natCast_div_floor (m n : ℕ) : ⌊(m : ℚ) / (n : ℚ)⌋₊ = m / n := by
  rw [Nat.floor_div_nat, Nat.floor_natCast]

/-- The spec's Scenario input: `(all)` count 80, two sources with
count 50 / advanced 40 / rejected 5 / pending 5, and a `(no response)` row. -/
def rowsScenario : List AggRow :=
  [⟨"(all)", 80, 80, 0, 0, 0⟩,
   ⟨"Source A", 50, 0, 40, 5, 5⟩,
   ⟨"Source B", 50, 0, 40, 5, 5⟩,
   ⟨"(no response)", 5, 0, 0, 0, 0⟩]

def aggAll80 : AggRow := ⟨"(all)", 80, 80, 0, 0, 0⟩

/-- Table with `ALL.count = 1` and a single source row with `Count = 49`,
`Stage 2 advanced = 49`: the exact floor of `49 * (1/49)` is 1, but the
binary64 product `49 * (1/49)` is just below 1 and `int()` truncates to 0. -/
def rowsFloorGap : List AggRow :=
  [⟨"(all)", 1, 1, 0, 0, 0⟩, ⟨"Source A", 49, 0, 49, 0, 0⟩]

/-- C1 counterexample: on `rowsFloorGap` (an `ALL` row present, source
`Count` sum positive), the code returns `corrected_advanced = 0` while the
claimed `floor(raw_advanced * true_count / raw_sum) = floor(49 * 1 / 49)`
is 1. -/
theorem spec_c1_cex :
    (calculate_correct_totals rowsFloorGap).map CorrectedTotals.advanced = some 0
    ∧ ⌊(rawAdvanced rowsFloorGap : ℚ) * (1 : ℚ) / (rawSum rowsFloorGap : ℚ)⌋₊ = 1
    ∧ (0 : Int) ≠ ((1 : ℕ) : Int) := by
  refine ⟨by decide, ?_, by decide⟩
  have e1 : rawAdvanced rowsFloorGap = 49 := by decide
  have e2 : rawSum rowsFloorGap = 49 := by decide
  rw [e1, e2, show ((49 : ℕ) : ℚ) * (1 : ℚ) = ((49 : ℕ) : ℚ) by norm_num,
    natCast_div_floor]

/-- C1 amended: with an `ALL` row present and a positive source-row `Count`
sum, each corrected stage count is the binary64 evaluation of
`raw_X * (true_count / raw_sum)` truncated toward zero (`est64`), not the
exact rational floor — float rounding can drop below it (see the
counterexample).  On the spec's P2/Scenario instance (`[50, 50]` sources,
advanced `[40, 40]`, `ALL.count = 80`) the float computation does agree with
the exact floors: 64, 8, 8. -/
theorem spec_c1 (rows : List AggRow) (a : AggRow)
    (h1 : allRow? rows = some a) (h2 : 0 < wrap64 (rawSum rows)) :
    ((calculate_correct_totals rows).map CorrectedTotals.advanced
        = some (est64 (wrap64 (rawAdvanced rows)) a.count (wrap64 (rawSum rows)))
      ∧ (calculate_correct_totals rows).map CorrectedTotals.rejected
        = some (est64 (wrap64 (rawRejected rows)) a.count (wrap64 (rawSum rows)))
      ∧ (calculate_correct_totals rows).map CorrectedTotals.pending
        = some (est64 (wrap64 (rawPending rows)) a.count (wrap64 (rawSum rows))))
    ∧ ((calculate_correct_totals rowsScenario).map CorrectedTotals.advanced = some 64
      ∧ (calculate_correct_totals rowsScenario).map CorrectedTotals.rejected = some 8
      ∧ (calculate_correct_totals rowsScenario).map CorrectedTotals.pending = some 8
      ∧ ⌊(rawAdvanced rowsScenario : ℚ) * (80 : ℚ) / (rawSum rowsScenario : ℚ)⌋₊ = 64) := by
  constructor
  · simp only [calculate_correct_totals, h1, Option.map_some', if_pos h2]
    exact ⟨trivial, trivial, trivial⟩
  · refine ⟨by decide, by decide, by decide, ?_⟩
    have e1 : rawAdvanced rowsScenario = 80 := by decide
    have e2 : rawSum rowsScenario = 100 := by decide
    rw [e1, e2, show ((80 : ℕ) : ℚ) * (80 : ℚ) = ((6400 : ℕ) : ℚ) by norm_num,
      natCast_div_floor]

theorem spec_c1_witness :
    (allRow? rowsScenario = some aggAll80 ∧ 0 < wrap64 (rawSum rowsScenario))
    ∧ (calculate_correct_totals rowsScenario).map CorrectedTotals.advanced
        = some (est64 (wrap64 (rawAdvanced rowsScenario)) aggAll80.count
            (wrap64 (rawSum rowsScenario)))
    ∧ (calculate_correct_totals rowsScenario).map CorrectedTotals.advanced = some 64 :=
  ⟨⟨rfl, by decide⟩, (spec_c1 rowsScenario aggAll80 rfl (by decide)).1.1,
    ((spec_c1 rowsScenario aggAll80 rfl (by decide)).2).1⟩

/-- C2: when no row has `Source == '(all)'`, the function does not produce a
`CorrectedTotals`: it returns the failure value (`None` in the source, the
spec's `MissingTotalRow`), embedded as `none`. -/
theorem spec_c2 (rows : List AggRow) (h : ∀ r ∈ rows, r.source ≠ "(all)") :
    calculate_correct_totals rows = none := by
  have hall : allRow? rows = none := by
    unfold allRow?
    rw [List.head?_eq_none_iff, List.filter_eq_nil_iff]
    intro r hr
    simp only [beq_iff_eq]
    exact h r hr
  simp [calculate_correct_totals, hall]

def rowsNoAll : List AggRow := [⟨"Source A", 50, 0, 40, 5, 5⟩]

theorem spec_c2_witness : calculate_correct_totals rowsNoAll = none :=
  spec_c2 rowsNoAll (by decide)

/-- C5: with an `ALL` row present and a zero source-row `Count` sum, all
three corrected stage counts are 0, whatever the `ALL` row's count. -/
theorem spec_c5 (rows : List AggRow) (a : AggRow)
    (h1 : allRow? rows = some a) (h2 : rawSum rows = 0) :
    (calculate_correct_totals rows).map CorrectedTotals.advanced = some 0
    ∧ (calculate_correct_totals rows).map CorrectedTotals.rejected = some 0
    ∧ (calculate_correct_totals rows).map CorrectedTotals.pending = some 0 := by
  simp [calculate_correct_totals, h1, h2, wrap64]

def rowsOnlyAll : List AggRow := [⟨"(all)", 7, 7, 3, 2, 1⟩]

def aggAll7 : AggRow := ⟨"(all)", 7, 7, 3, 2, 1⟩

theorem spec_c5_witness :
    (allRow? rowsOnlyAll = some aggAll7 ∧ rawSum rowsOnlyAll = 0)
    ∧ ((calculate_correct_totals rowsOnlyAll).map CorrectedTotals.advanced = some 0
        ∧ (calculate_correct_totals rowsOnlyAll).map CorrectedTotals.rejected = some 0
        ∧ (calculate_correct_totals rowsOnlyAll).map CorrectedTotals.pending = some 0) :=
  ⟨⟨rfl, rfl⟩, spec_c5 rowsOnlyAll aggAll7 rfl rfl⟩

/-- Input refuting the unrestricted advancement-rate bound: the single
source row has `Stage 2 advanced = 200` but `Count = 1` (all fields
non-negative and an `(all)` row is present), so the scaled estimate exceeds
the true total. -/
def rowsRateBlowup : List AggRow :=
  [⟨"(all)", 10, 10, 0, 0, 0⟩, ⟨"Source A", 1, 0, 200, 0, 0⟩]

/-- C4 counterexample: on `rowsRateBlowup` — non-negative numeric fields and
an `ALL` row — the returned `advancement_rate` is the float value `20000`
(dyadic `5497558138880000 * 2^-38`), not in `[0, 100]`: the claim as stated
is false. -/
theorem spec_c4_cex :
    (calculate_correct_totals rowsRateBlowup).map CorrectedTotals.advancement_rate
      = some ⟨5497558138880000, -38⟩
    ∧ F64.toRat ⟨5497558138880000, -38⟩ = 20000
    ∧ ¬ ((20000 : ℚ) ≤ 100) := by
  refine ⟨by decide, ?_, by norm_num⟩
  rw [F64.toRat]
  norm_num
  rw [show Int.toNat 38 = 38 from rfl]
  norm_num

/-- C4 amended: with an `ALL` row present, and provided the source-row
column sums stay below `2^63` (no int64 wrap), the advancement rate is
non-negative, and it is exactly 0 whenever the `ALL` row's count is 0 (the
code's `else 0` branch, no float arithmetic).  No upper bound of `100`
survives: the original claim already fails on `rowsRateBlowup`, and even
under the documented row invariant binary64 rounding can return
`100.00000000000003` (e.g. `ALL.count = 2^54 - 2`, one source with
`Count = 3`, `advanced = 3`). -/
theorem spec_c4 (rows : List AggRow) (a : AggRow) (ct : CorrectedTotals)
    (h1 : allRow? rows = some a) (h2 : calculate_correct_totals rows = some ct)
    (h3 : rawAdvanced rows < 2 ^ 63) (h4 : rawSum rows < 2 ^ 63) :
    0 ≤ F64.toRat ct.advancement_rate
    ∧ (a.count = 0 → F64.toRat ct.advancement_rate = 0) := by
  simp only [calculate_correct_totals, h1, Option.some.injEq] at h2
  subst h2
  simp only
  by_cases hT : 0 < a.count
  · rw [if_pos hT]
    have hadv : (0 : Int) ≤ wrap64 (rawAdvanced rows) := by
      rw [wrap64_eq_self h3]
      exact Int.natCast_nonneg _
    have hsum : (0 : Int) ≤ wrap64 (rawSum rows) := by
      rw [wrap64_eq_self h4]
      exact Int.natCast_nonneg _
    have hest : (0 : Int) ≤
        (if 0 < wrap64 (rawSum rows) then
          est64 (wrap64 (rawAdvanced rows)) a.count (wrap64 (rawSum rows))
        else 0) := by
      split
      · exact est64_nonneg hadv hsum
      · exact le_refl 0
    refine ⟨toRat_nonneg (rate64_m_nonneg hest), ?_⟩
    intro h0
    omega
  · rw [if_neg hT]
    refine ⟨?_, fun _ => ?_⟩ <;> norm_num [F64.toRat]

/-- Input whose `ALL` count is 0 (rate hits the `else 0` branch) and whose
source rows satisfy the row invariant. -/
def rowsZeroTotal : List AggRow :=
  [⟨"(all)", 0, 0, 0, 0, 0⟩, ⟨"Source A", 2, 0, 1, 0, 0⟩]

def aggAll0 : AggRow := ⟨"(all)", 0, 0, 0, 0, 0⟩

def ctZeroTotal : CorrectedTotals := ⟨0, 0, 0, 0, ⟨0, 0⟩⟩

theorem spec_c4_witness :
    (allRow? rowsZeroTotal = some aggAll0
      ∧ calculate_correct_totals rowsZeroTotal = some ctZeroTotal
      ∧ rawAdvanced rowsZeroTotal < 2 ^ 63 ∧ rawSum rowsZeroTotal < 2 ^ 63)
    ∧ (0 ≤ F64.toRat ctZeroTotal.advancement_rate
        ∧ (aggAll0.count = 0 → F64.toRat ctZeroTotal.advancement_rate = 0)) :=
  ⟨⟨rfl, by decide, by decide, by decide⟩,
    spec_c4 rowsZeroTotal aggAll0 ctZeroTotal rfl (by decide) (by decide) (by decide)⟩

theorem sourcesOnly_map_update (rows : List AggRow) (f : AggRow → Nat) :
    sourcesOnly (rows.map (fun r => { r with totalApplications := f r }))
      = (sourcesOnly rows).map (fun r => { r with totalApplications := f r }) := by
  unfold sourcesOnly
  rw [List.filter_map]
  rfl

theorem allRow?_map_update (rows : List AggRow) (f : AggRow → Nat) :
    allRow? (rows.map (fun r => { r with totalApplications := f r }))
      = (allRow? rows).map (fun r => { r with totalApplications := f r }) := by
  unfold allRow?
  rw [List.filter_map, List.head?_map]
  rfl

/-- C10: the `Total applications` column is read into `total_apps` but never
used, so two tables identical except in that column produce identical
results. -/
theorem spec_c10 (rows : List AggRow) (f : AggRow → Nat) :
    calculate_correct_totals (rows.map (fun r => { r with totalApplications := f r }))
      = calculate_correct_totals rows := by
  have hadv : rawAdvanced (rows.map (fun r => { r with totalApplications := f r }))
      = rawAdvanced rows := by
    unfold rawAdvanced
    rw [sourcesOnly_map_update, List.map_map]
    rfl
  have hrej : rawRejected (rows.map (fun r => { r with totalApplications := f r }))
      = rawRejected rows := by
    unfold rawRejected
    rw [sourcesOnly_map_update, List.map_map]
    rfl
  have hpen : rawPending (rows.map (fun r => { r with totalApplications := f r }))
      = rawPending rows := by
    unfold rawPending
    rw [sourcesOnly_map_update, List.map_map]
    rfl
  have hsum : rawSum (rows.map (fun r => { r with totalApplications := f r }))
      = rawSum rows := by
    unfold rawSum
    rw [sourcesOnly_map_update, List.map_map]
    rfl
  cases o : allRow? rows with
  | none =>
    simp [calculate_correct_totals, allRow?_map_update, o]
  | some a =>
    simp [calculate_correct_totals, allRow?_map_update, o, hadv, hrej, hpen, hsum]

/-!
Delta Component: `get_daily_new_applications` (lines 129-151).

A `DailyRow` is one row of the daily referral table after
`load_referral_daily` (dates comparable, all cumulative columns coerced to
non-negative integers).  Dates are embedded as `Nat` ordinals.  A `DeltaRow`
is the corresponding output row: the original row plus the four `New ...`
columns (`diff()` values are differences of integers, so they live in `ℤ`;
the first row of each group gets its own cumulative value via `fillna`).
-/

structure DailyRow where
  source : String
  date : Nat
  cumulativeCount : Nat
  cumulativeAdvanced : Nat
  cumulativeRejected : Nat
  cumulativePending : Nat
deriving DecidableEq

structure DeltaRow where
  row : DailyRow
  newCount : Int
  newAdvanced : Int
  newRejected : Int
  newPending : Int
deriving DecidableEq

/-- Comparison used by `df.sort_values(['Source', 'Date'])`. -/
def lexLe (a b : DailyRow) : Bool :=
  srcLt a.source b.source || (a.source == b.source && decide (a.date ≤ b.date))

/-- Comparison used by `source_df.sort_values('Date')`. -/
def dateLe (a b : DailyRow) : Bool := decide (a.date ≤ b.date)

/-- `df['Source'] == source` on an input row. -/
def pSrc (s : String) (r : DailyRow) : Bool := r.source == s

/-- The same source test on an output row. -/
def qSrc (s : String) (d : DeltaRow) : Bool := d.row.source == s

/-- First row of a group: `diff()` is NaN there and `fillna` substitutes the
row's own cumulative value, stored in the float64 result column — i.e. the
int64 cell rounded to 53 significant bits. -/
def mkFirst (r : DailyRow) : DeltaRow :=
  ⟨r, fl53I (r.cumulativeCount : Int), fl53I (r.cumulativeAdvanced : Int),
    fl53I (r.cumulativeRejected : Int), fl53I (r.cumulativePending : Int)⟩

/-- Subsequent row of a group: `diff()` converts the int64 column to float64
(rounding each cell to 53 bits) and subtracts with one more correct
rounding; the stored delta is therefore `fl(fl(cur) - fl(prev))`. -/
def mkDiff (prev cur : DailyRow) : DeltaRow :=
  ⟨cur,
    fl53I (fl53I (cur.cumulativeCount : Int) - fl53I (prev.cumulativeCount : Int)),
    fl53I (fl53I (cur.cumulativeAdvanced : Int) - fl53I (prev.cumulativeAdvanced : Int)),
    fl53I (fl53I (cur.cumulativeRejected : Int) - fl53I (prev.cumulativeRejected : Int)),
    fl53I (fl53I (cur.cumulativePending : Int) - fl53I (prev.cumulativePending : Int))⟩

/-- All four cumulative counters of a row fit in 53 bits — true of every
realistic marketing count; float64 represents such values exactly. -/
def smallCums (r : DailyRow) : Prop :=
  r.cumulativeCount < 2 ^ 53 ∧ r.cumulativeAdvanced < 2 ^ 53
    ∧ r.cumulativeRejected < 2 ^ 53 ∧ r.cumulativePending < 2 ^ 53

instance (r : DailyRow) : Decidable (smallCums r) := by
  unfold smallCums
  exact inferInstance

def diffsFrom (prev : DailyRow) : List DailyRow → List DeltaRow
  | [] => []
  | r :: rest => mkDiff prev r :: diffsFrom r rest

/-- The four `diff().fillna(...)` column assignments applied to one
date-sorted entity group. -/
def groupDeltas : List DailyRow → List DeltaRow
  | [] => []
  | r :: rest => mkFirst r :: diffsFrom r rest

/-- Embedding of `get_daily_new_applications`: sort by `['Source', 'Date']`,
iterate the distinct sources of the sorted frame in first-occurrence order,
re-sort each group by `Date`, add the delta columns, and concatenate. -/
def get_daily_new_applications (rows : List DailyRow) : List DeltaRow :=
  let df := sortBy lexLe rows
  (pandasUnique (df.map DailyRow.source)).flatMap
    (fun s => groupDeltas (sortBy dateLe (df.filter (pSrc s))))

def newCounts (l : List DeltaRow) : List Int := l.map DeltaRow.newCount

theorem lexLe_total (a b : DailyRow) : lexLe a b = true ∨ lexLe b a = true := by
  unfold lexLe
  by_cases hab : srcLt a.source b.source = true
  · left; simp [hab]
  · by_cases hba : srcLt b.source a.source = true
    · right; simp [hba]
    · have he : a.source = b.source :=
        srcLt_connex (Bool.eq_false_iff.mpr hab) (Bool.eq_false_iff.mpr hba)
      rcases Nat.le_total a.date b.date with h | h
      · left; simp [he, h]
      · right; simp [he, h]

theorem lexLe_trans (a b c : DailyRow) (h1 : lexLe a b = true)
    (h2 : lexLe b c = true) : lexLe a c = true := by
  unfold lexLe at h1 h2 ⊢
  simp only [Bool.or_eq_true, Bool.and_eq_true, beq_iff_eq,
    decide_eq_true_eq] at h1 h2 ⊢
  rcases h1 with h1 | ⟨e1, d1⟩ <;> rcases h2 with h2 | ⟨e2, d2⟩
  · exact Or.inl (srcLt_trans h1 h2)
  · exact Or.inl (by rw [← e2]; exact h1)
  · exact Or.inl (by rw [e1]; exact h2)
  · exact Or.inr ⟨e1.trans e2, le_trans d1 d2⟩

theorem dateLe_total (a b : DailyRow) : dateLe a b = true ∨ dateLe b a = true := by
  unfold dateLe
  rcases Nat.le_total a.date b.date with h | h
  · left; simpa using h
  · right; simpa using h

theorem dateLe_trans (a b c : DailyRow) (h1 : dateLe a b = true)
    (h2 : dateLe b c = true) : dateLe a c = true := by
  unfold dateLe at h1 h2 ⊢
  simp only [decide_eq_true_eq] at h1 h2 ⊢
  exact le_trans h1 h2

theorem lexLe_eq_dateLe_of_src {a b : DailyRow} (h : a.source = b.source) :
    lexLe a b = dateLe a b := by
  unfold lexLe dateLe
  rw [h]
  simp [srcLt_irrefl]

theorem map_row_diffsFrom : ∀ (prev : DailyRow) (g : List DailyRow),
    (diffsFrom prev g).map DeltaRow.row = g := by
  intro prev g
  induction g generalizing prev with
  | nil => rfl
  | cons r rest ih => simp [diffsFrom, mkDiff, ih]

theorem map_row_groupDeltas (g : List DailyRow) :
    (groupDeltas g).map DeltaRow.row = g := by
  cases g with
  | nil => rfl
  | cons r rest => simp [groupDeltas, mkFirst, map_row_diffsFrom]

theorem head?_groupDeltas (g : List DailyRow) :
    (groupDeltas g).head? = g.head?.map mkFirst := by
  cases g <;> rfl

theorem chain'_cons_diffsFrom (R : DeltaRow → DeltaRow → Prop)
    (hR : ∀ (d : DeltaRow) (cur : DailyRow), R d (mkDiff d.row cur)) :
    ∀ (g : List DailyRow) (d : DeltaRow) (prev : DailyRow), d.row = prev →
    List.Chain' R (d :: diffsFrom prev g) := by
  intro g
  induction g with
  | nil => intro d prev _; exact List.chain'_singleton d
  | cons cur rest ih =>
    intro d prev hd
    simp only [diffsFrom]
    rw [List.chain'_cons]
    constructor
    · rw [← hd]; exact hR d cur
    · exact ih (mkDiff prev cur) cur rfl

theorem chain'_groupDeltas (R : DeltaRow → DeltaRow → Prop)
    (hR : ∀ (d : DeltaRow) (cur : DailyRow), R d (mkDiff d.row cur))
    (g : List DailyRow) : List.Chain' R (groupDeltas g) := by
  cases g with
  | nil => simp [groupDeltas]
  | cons r rest => exact chain'_cons_diffsFrom R hR rest (mkFirst r) r rfl

theorem filter_insertBy_of_neg {le : α → α → Bool} {p : α → Bool} {x : α}
    (hx : p x = false) :
    ∀ l : List α, (insertBy le x l).filter p = l.filter p := by
  intro l
  induction l with
  | nil => simp [insertBy, hx]
  | cons y ys ih =>
    simp only [insertBy]
    by_cases h : (le y x && !le x y) = true
    · rw [if_pos h]
      simp only [List.filter_cons, ih]
    · rw [if_neg h]
      simp [List.filter_cons, hx]

theorem filter_insertBy_of_pos {le : α → α → Bool} {p : α → Bool} {x : α}
    (hx : p x = true)
    (hstrict : ∀ y, le y x = true → le x y = false → p y = false) :
    ∀ l : List α, (insertBy le x l).filter p = x :: l.filter p := by
  intro l
  induction l with
  | nil => simp [insertBy, hx]
  | cons y ys ih =>
    simp only [insertBy]
    by_cases h : (le y x && !le x y) = true
    · rw [if_pos h]
      have hsplit := h
      rw [Bool.and_eq_true] at hsplit
      obtain ⟨hyx, hxy⟩ := hsplit
      have hxy' : le x y = false := by simpa using hxy
      have hpy : p y = false := hstrict y hyx hxy'
      simp [List.filter_cons, hpy, ih]
    · rw [if_neg h]
      simp [List.filter_cons, hx]

theorem filter_insertBy_lex (s : String) (x : DailyRow) (hx : x.source = s) :
    ∀ L : List DailyRow, L.Pairwise (fun a b => lexLe a b = true) →
    (insertBy lexLe x L).filter (pSrc s) = insertBy dateLe x (L.filter (pSrc s)) := by
  intro L
  induction L with
  | nil =>
    intro _
    simp [insertBy, pSrc, hx]
  | cons y ys ih =>
    intro hL
    rw [List.pairwise_cons] at hL
    obtain ⟨hy, hys⟩ := hL
    have hpx : pSrc s x = true := by simp [pSrc, hx]
    simp only [insertBy]
    by_cases h : (lexLe y x && !lexLe x y) = true
    · rw [if_pos h]
      by_cases hsy : y.source = s
      · have he : y.source = x.source := hsy.trans hx.symm
        have e1 : lexLe y x = dateLe y x := lexLe_eq_dateLe_of_src he
        have e2 : lexLe x y = dateLe x y := lexLe_eq_dateLe_of_src he.symm
        have h' : (dateLe y x && !dateLe x y) = true := by
          rw [← e1, ← e2]; exact h
        have hpy : pSrc s y = true := by simp [pSrc, hsy]
        simp only [List.filter_cons, hpy, if_pos, ih hys]
        simp [insertBy, h']
      · have hpy : pSrc s y = false := by simp [pSrc, hsy]
        simp only [List.filter_cons, hpy]
        simp only [Bool.false_eq_true, if_neg, ih hys]
        rfl
    · rw [if_neg h]
      by_cases hsy : y.source = s
      · have he : y.source = x.source := hsy.trans hx.symm
        have e1 : lexLe y x = dateLe y x := lexLe_eq_dateLe_of_src he
        have e2 : lexLe x y = dateLe x y := lexLe_eq_dateLe_of_src he.symm
        have h' : ¬ (dateLe y x && !dateLe x y) = true := by
          rw [← e1, ← e2]; exact h
        have hpy : pSrc s y = true := by simp [pSrc, hsy]
        simp only [List.filter_cons, hpx, hpy, if_pos]
        simp [insertBy, h']
      · have hpy : pSrc s y = false := by simp [pSrc, hsy]
        simp only [List.filter_cons, hpx, hpy, if_pos]
        simp only [Bool.false_eq_true, if_neg]
        cases hfy : ys.filter (pSrc s) with
        | nil => simp [insertBy]
        | cons z zs =>
          have hz : z ∈ ys.filter (pSrc s) := by
            rw [hfy]; exact List.mem_cons_self z zs
          have hz' := List.mem_filter.mp hz
          have hzs : z.source = s := by
            have := hz'.2
            simpa [pSrc, beq_iff_eq] using this
          have hyz : lexLe y z = true := hy z hz'.1
          have hc : ¬ (dateLe z x && !dateLe x z) = true := by
            intro hcon
            rw [Bool.and_eq_true] at hcon
            obtain ⟨hzx, hxz⟩ := hcon
            have hxz' : dateLe x z = false := by simpa using hxz
            have hlexzx : lexLe z x = true := by
              rw [lexLe_eq_dateLe_of_src (hzs.trans hx.symm)]; exact hzx
            have hlexxz : lexLe x z = false := by
              rw [lexLe_eq_dateLe_of_src (hx.trans hzs.symm)]; exact hxz'
            have hyx : lexLe y x = true := lexLe_trans y z x hyz hlexzx
            have hxy : lexLe x y = false := by
              by_contra hh
              have hxy' : lexLe x y = true := by simpa using hh
              have hcontra : lexLe x z = true := lexLe_trans x y z hxy' hyz
              rw [hlexxz] at hcontra
              exact Bool.false_ne_true hcontra
            exact h (by rw [hyx, hxy]; rfl)
          simp [insertBy, hc]

theorem sortBy_lex_filter (s : String) : ∀ rows : List DailyRow,
    (sortBy lexLe rows).filter (pSrc s) = sortBy dateLe (rows.filter (pSrc s)) := by
  intro rows
  induction rows with
  | nil => rfl
  | cons r rs ih =>
    simp only [sortBy]
    by_cases hr : r.source = s
    · have hpr : pSrc s r = true := by simp [pSrc, hr]
      rw [filter_insertBy_lex s r hr (sortBy lexLe rs)
        (pairwise_sortBy lexLe_total lexLe_trans rs), ih]
      simp only [List.filter_cons, hpr, if_pos]
      rfl
    · have hpr : pSrc s r = false := by simp [pSrc, hr]
      rw [filter_insertBy_of_neg hpr, ih]
      simp only [List.filter_cons, hpr]
      simp


theorem filter_flatMap_not_mem (f : String → List DeltaRow) (s : String) :
    ∀ ks : List String, s ∉ ks →
    (∀ s' ∈ ks, ∀ d ∈ f s', d.row.source = s') →
    (ks.flatMap f).filter (qSrc s) = [] := by
  intro ks
  induction ks with
  | nil => intro _ _; rfl
  | cons k ks ih =>
    intro hs hhom
    have hk : k ≠ s := fun h => hs (h ▸ List.mem_cons_self k ks)
    rw [List.flatMap_cons, List.filter_append,
      ih (fun h => hs (List.mem_cons_of_mem k h))
        (fun s' hs' => hhom s' (List.mem_cons_of_mem k hs')),
      List.append_nil, List.filter_eq_nil_iff]
    intro d hd
    have hds : d.row.source = k := hhom k (List.mem_cons_self k ks) d hd
    simp [qSrc, hds, hk]

theorem filter_flatMap_of_mem (f : String → List DeltaRow) (s : String) :
    ∀ ks : List String, ks.Nodup → s ∈ ks →
    (∀ s' ∈ ks, ∀ d ∈ f s', d.row.source = s') →
    (ks.flatMap f).filter (qSrc s) = f s := by
  intro ks
  induction ks with
  | nil => intro _ hmem _; exact absurd hmem (List.not_mem_nil s)
  | cons k ks ih =>
    intro hnd hmem hhom
    rw [List.nodup_cons] at hnd
    rw [List.flatMap_cons, List.filter_append]
    rcases List.mem_cons.mp hmem with rfl | hmem'
    · rw [filter_flatMap_not_mem f s ks hnd.1
        (fun s' hs' => hhom s' (List.mem_cons_of_mem s hs')),
        List.append_nil, List.filter_eq_self]
      intro d hd
      have hds : d.row.source = s := hhom s (List.mem_cons_self s ks) d hd
      simp [qSrc, hds]
    · have hk : k ≠ s := fun h => hnd.1 (h ▸ hmem')
      have h1 : (f k).filter (qSrc s) = [] := by
        rw [List.filter_eq_nil_iff]
        intro d hd
        have hds : d.row.source = k := hhom k (List.mem_cons_self k ks) d hd
        simp [qSrc, hds, hk]
      rw [h1, List.nil_append]
      exact ih hnd.2 hmem' (fun s' hs' => hhom s' (List.mem_cons_of_mem k hs'))

theorem flatMap_congr_mem {β : Type} {f g : String → List β} :
    ∀ ks : List String, (∀ s ∈ ks, f s = g s) → ks.flatMap f = ks.flatMap g := by
  intro ks
  induction ks with
  | nil => intro _; rfl
  | cons k ks ih =>
    intro h
    rw [List.flatMap_cons, List.flatMap_cons, h k (List.mem_cons_self k ks),
      ih (fun s hs => h s (List.mem_cons_of_mem k hs))]

theorem flatMap_filter_partition_perm :
    ∀ (ks : List String) (l : List DailyRow), ks.Nodup →
    (∀ r ∈ l, r.source ∈ ks) →
    (ks.flatMap (fun s => l.filter (pSrc s))).Perm l := by
  intro ks
  induction ks with
  | nil =>
    intro l _ hcov
    cases l with
    | nil => rfl
    | cons r rs =>
      exact absurd (hcov r (List.mem_cons_self r rs)) (List.not_mem_nil r.source)
  | cons k ks ih =>
    intro l hnd hcov
    rw [List.nodup_cons] at hnd
    rw [List.flatMap_cons]
    have hrest : ∀ s ∈ ks, l.filter (pSrc s)
        = (l.filter (fun r => !(pSrc k r))).filter (pSrc s) := by
      intro s hs
      have hk : k ≠ s := fun h => hnd.1 (h ▸ hs)
      rw [List.filter_filter]
      apply List.filter_congr
      intro r _
      by_cases hrs : r.source = s
      · have hkr : pSrc k r = false := by
          have hne : r.source ≠ k := fun h => hk (hrs ▸ h).symm
          simp [pSrc, hne]
        simp [pSrc, hrs, hkr, Ne.symm hk]
      · simp [pSrc, hrs]
    rw [flatMap_congr_mem ks hrest]
    have hcov' : ∀ r ∈ l.filter (fun r => !(pSrc k r)), r.source ∈ ks := by
      intro r hr
      have hr' := List.mem_filter.mp hr
      have hne : r.source ≠ k := by
        have := hr'.2
        simp only [pSrc, Bool.not_eq_true', beq_eq_false_iff_ne] at this
        exact this
      rcases List.mem_cons.mp (hcov r hr'.1) with h | h
      · exact absurd h hne
      · exact h
    have hperm := ih (l.filter (fun r => !(pSrc k r))) hnd.2 hcov'
    exact (hperm.append_left _).trans (List.filter_append_perm (pSrc k) l)

theorem flatMap_perm_congr {β : Type} (f g : String → List β) :
    ∀ ks : List String, (∀ s ∈ ks, (f s).Perm (g s)) →
    (ks.flatMap f).Perm (ks.flatMap g) := by
  intro ks
  induction ks with
  | nil => intro _; rfl
  | cons k ks ih =>
    intro h
    rw [List.flatMap_cons, List.flatMap_cons]
    exact (h k (List.mem_cons_self k ks)).append
      (ih (fun s hs => h s (List.mem_cons_of_mem k hs)))

theorem block_source (rows : List DailyRow) (s : String) :
    ∀ d ∈ groupDeltas (sortBy dateLe ((sortBy lexLe rows).filter (pSrc s))),
      d.row.source = s := by
  intro d hd
  have h1 : d.row ∈ (groupDeltas
      (sortBy dateLe ((sortBy lexLe rows).filter (pSrc s)))).map DeltaRow.row :=
    List.mem_map_of_mem DeltaRow.row hd
  rw [map_row_groupDeltas] at h1
  have h2 : d.row ∈ (sortBy lexLe rows).filter (pSrc s) :=
    ((sortBy_perm dateLe _).mem_iff).mp h1
  have h3 := (List.mem_filter.mp h2).2
  simpa [pSrc, beq_iff_eq] using h3

/-- The output rows bearing source `s` are exactly the delta-annotated,
date-sorted group of the input rows with source `s`. -/
theorem out_filter (rows : List DailyRow) (s : String) :
    (get_daily_new_applications rows).filter (qSrc s)
      = groupDeltas (sortBy dateLe (rows.filter (pSrc s))) := by
  simp only [get_daily_new_applications]
  by_cases hmem : s ∈ pandasUnique ((sortBy lexLe rows).map DailyRow.source)
  · rw [filter_flatMap_of_mem
      (fun s' => groupDeltas (sortBy dateLe ((sortBy lexLe rows).filter (pSrc s')))) s
      (pandasUnique ((sortBy lexLe rows).map DailyRow.source))
      (nodup_pandasUnique _) hmem (fun s' _ => block_source rows s')]
    rw [sortBy_lex_filter s rows,
      sortBy_eq_of_pairwise (pairwise_sortBy dateLe_total dateLe_trans _)]
  · rw [filter_flatMap_not_mem
      (fun s' => groupDeltas (sortBy dateLe ((sortBy lexLe rows).filter (pSrc s')))) s
      (pandasUnique ((sortBy lexLe rows).map DailyRow.source))
      hmem (fun s' _ => block_source rows s')]
    have hempty : rows.filter (pSrc s) = [] := by
      rw [List.filter_eq_nil_iff]
      intro r hr hpr
      have h1 : r ∈ sortBy lexLe rows := ((sortBy_perm lexLe rows).mem_iff).mpr hr
      have h2 : r.source ∈ (sortBy lexLe rows).map DailyRow.source :=
        List.mem_map_of_mem DailyRow.source h1
      have h3 : r.source ∈ pandasUnique ((sortBy lexLe rows).map DailyRow.source) :=
        mem_pandasUnique.mpr h2
      have h4 : r.source = s := by simpa [pSrc, beq_iff_eq] using hpr
      exact hmem (h4 ▸ h3)
    rw [hempty]
    rfl

/-- The multiset of underlying rows is preserved: the output is a
permutation-with-annotations of the input. -/
theorem out_row_perm (rows : List DailyRow) :
    ((get_daily_new_applications rows).map DeltaRow.row).Perm rows := by
  simp only [get_daily_new_applications]
  rw [List.map_flatMap]
  have heq : ∀ s' ∈ pandasUnique ((sortBy lexLe rows).map DailyRow.source),
      (groupDeltas (sortBy dateLe ((sortBy lexLe rows).filter (pSrc s')))).map DeltaRow.row
        = sortBy dateLe ((sortBy lexLe rows).filter (pSrc s')) :=
    fun s' _ => map_row_groupDeltas _
  rw [flatMap_congr_mem _ heq]
  have hp1 : ((pandasUnique ((sortBy lexLe rows).map DailyRow.source)).flatMap
        (fun s' => sortBy dateLe ((sortBy lexLe rows).filter (pSrc s')))).Perm
      ((pandasUnique ((sortBy lexLe rows).map DailyRow.source)).flatMap
        (fun s' => (sortBy lexLe rows).filter (pSrc s'))) :=
    flatMap_perm_congr _ _ _ (fun s' _ => sortBy_perm dateLe _)
  have hp2 : ((pandasUnique ((sortBy lexLe rows).map DailyRow.source)).flatMap
        (fun s' => (sortBy lexLe rows).filter (pSrc s'))).Perm (sortBy lexLe rows) := by
    apply flatMap_filter_partition_perm _ _ (nodup_pandasUnique _)
    intro r hr
    exact mem_pandasUnique.mpr (List.mem_map_of_mem DailyRow.source hr)
  exact (hp1.trans hp2).trans (sortBy_perm lexLe rows)

theorem chain'_discharge (P : DeltaRow → Prop) (R : DeltaRow → DeltaRow → Prop) :
    ∀ l : List DeltaRow, List.Chain' (fun a b => P a → P b → R a b) l →
      (∀ d ∈ l, P d) → List.Chain' R l := by
  intro l
  induction l with
  | nil => intro _ _; exact List.chain'_nil
  | cons a t ih =>
    intro hc hm
    cases t with
    | nil => exact List.chain'_singleton a
    | cons b t2 =>
      rw [List.chain'_cons] at hc ⊢
      exact ⟨hc.1 (hm a (List.mem_cons_self a (b :: t2)))
          (hm b (List.mem_cons_of_mem a (List.mem_cons_self b t2))),
        ih hc.2 (fun d hd => hm d (List.mem_cons_of_mem a hd))⟩

theorem mem_rows_of_mem_block {rows : List DailyRow} {s : String} {d : DeltaRow}
    (hd : d ∈ groupDeltas (sortBy dateLe (rows.filter (pSrc s)))) :
    d.row ∈ rows := by
  have h1 : d.row ∈
      (groupDeltas (sortBy dateLe (rows.filter (pSrc s)))).map DeltaRow.row :=
    List.mem_map_of_mem DeltaRow.row hd
  rw [map_row_groupDeltas] at h1
  exact List.mem_of_mem_filter (((sortBy_perm dateLe _).mem_iff).mp h1)

/-- Single entity, four ordered dates, cumulative counts `[10, 25, 25, 40]`
(the spec's P4 instance). -/
def rowsFourDays : List DailyRow :=
  [⟨"a", 1, 10, 0, 0, 0⟩, ⟨"a", 2, 25, 0, 0, 0⟩,
   ⟨"a", 3, 25, 0, 0, 0⟩, ⟨"a", 4, 40, 0, 0, 0⟩]

/-- Single entity whose cumulative count decreases: `[30, 20]`
(the spec's P5 instance). -/
def rowsCounterReset : List DailyRow :=
  [⟨"a", 1, 30, 0, 0, 0⟩, ⟨"a", 2, 20, 0, 0, 0⟩]

/-- Two rows with the same (entity, date) pair. -/
def rowsDupPair : List DailyRow :=
  [⟨"a", 1, 1, 0, 0, 0⟩, ⟨"a", 1, 2, 0, 0, 0⟩]

/-- Single entity whose cumulative count `2^53 + 1` is loadable into int64
but not exactly representable in float64. -/
def rowsHugeCum : List DailyRow := [⟨"a", 1, 2 ^ 53 + 1, 0, 0, 0⟩]

/-- Counter reset from `2^53 + 3` to `0`: the exact negative delta
`-(2^53 + 3)` is rounded by the float64 column. -/
def rowsNegRound : List DailyRow :=
  [⟨"a", 1, 2 ^ 53 + 3, 0, 0, 0⟩, ⟨"a", 2, 0, 0, 0, 0⟩]

def pairOfDelta (d : DeltaRow) : String × Nat := (d.row.source, d.row.date)

def pairOfDaily (r : DailyRow) : String × Nat := (r.source, r.date)

/-- C3 counterexample: with a cumulative count of `2^53 + 1`, the float64
result column stores the first row's delta as `2^53`, not the row's own
cumulative value — the exact-delta claim fails on a loadable input. -/
theorem spec_c3_cex :
    newCounts (get_daily_new_applications rowsHugeCum) = [9007199254740992]
    ∧ rowsHugeCum.map DailyRow.cumulativeCount = [9007199254740993]
    ∧ (9007199254740992 : Int) ≠ (9007199254740993 : Int) := by
  refine ⟨by decide, by decide, by decide⟩

/-- C3 amended: provided every cumulative counter is below `2^53` (such
values are exactly representable in float64; all realistic marketing counts
qualify), within each entity group of the output the first row's four deltas
equal its own cumulative values and each subsequent row's deltas equal the
difference of consecutive cumulative values; beyond `2^53` the stored
float64 deltas are rounded (see the counterexample). -/
theorem spec_c3 (rows : List DailyRow) (s : String)
    (hb : ∀ r ∈ rows, smallCums r) :
    Option.map (fun d => (d.newCount, d.newAdvanced, d.newRejected, d.newPending))
        ((get_daily_new_applications rows).filter (qSrc s)).head?
      = Option.map (fun d => ((d.row.cumulativeCount : ℤ),
          (d.row.cumulativeAdvanced : ℤ), (d.row.cumulativeRejected : ℤ),
          (d.row.cumulativePending : ℤ)))
        ((get_daily_new_applications rows).filter (qSrc s)).head?
    ∧ List.Chain' (fun d₁ d₂ =>
        d₂.newCount = (d₂.row.cumulativeCount : ℤ) - (d₁.row.cumulativeCount : ℤ)
        ∧ d₂.newAdvanced
            = (d₂.row.cumulativeAdvanced : ℤ) - (d₁.row.cumulativeAdvanced : ℤ)
        ∧ d₂.newRejected
            = (d₂.row.cumulativeRejected : ℤ) - (d₁.row.cumulativeRejected : ℤ)
        ∧ d₂.newPending
            = (d₂.row.cumulativePending : ℤ) - (d₁.row.cumulativePending : ℤ))
      ((get_daily_new_applications rows).filter (qSrc s)) := by
  constructor
  · rw [out_filter, head?_groupDeltas]
    cases hX : sortBy dateLe (rows.filter (pSrc s)) with
    | nil => rfl
    | cons r t =>
      have hr : r ∈ rows := by
        have h1 : r ∈ sortBy dateLe (rows.filter (pSrc s)) := by
          rw [hX]
          exact List.mem_cons_self r t
        exact List.mem_of_mem_filter (((sortBy_perm dateLe _).mem_iff).mp h1)
      obtain ⟨b1, b2, b3, b4⟩ := hb r hr
      simp only [List.head?_cons, Option.map_some', mkFirst, Option.some.injEq]
      rw [fl53I_natCast b1, fl53I_natCast b2, fl53I_natCast b3, fl53I_natCast b4]
  · rw [out_filter]
    apply chain'_discharge (fun d => smallCums d.row)
    · apply chain'_groupDeltas
      intro d cur hPd hPcur
      have hPc : smallCums cur := hPcur
      unfold smallCums at hPd hPc
      obtain ⟨a1, a2, a3, a4⟩ := hPd
      obtain ⟨c1, c2, c3, c4⟩ := hPc
      simp only [mkDiff]
      refine ⟨?_, ?_, ?_, ?_⟩
      · rw [fl53I_natCast c1, fl53I_natCast a1, fl53I_eq_self (by omega) (by omega)]
      · rw [fl53I_natCast c2, fl53I_natCast a2, fl53I_eq_self (by omega) (by omega)]
      · rw [fl53I_natCast c3, fl53I_natCast a3, fl53I_eq_self (by omega) (by omega)]
      · rw [fl53I_natCast c4, fl53I_natCast a4, fl53I_eq_self (by omega) (by omega)]
    · intro d hd
      exact hb d.row (mem_rows_of_mem_block hd)

theorem spec_c3_witness :
    Option.map (fun d => (d.newCount, d.newAdvanced, d.newRejected, d.newPending))
        ((get_daily_new_applications rowsFourDays).filter (qSrc "a")).head?
      = Option.map (fun d => ((d.row.cumulativeCount : ℤ),
          (d.row.cumulativeAdvanced : ℤ), (d.row.cumulativeRejected : ℤ),
          (d.row.cumulativePending : ℤ)))
        ((get_daily_new_applications rowsFourDays).filter (qSrc "a")).head?
    ∧ List.Chain' (fun d₁ d₂ =>
        d₂.newCount = (d₂.row.cumulativeCount : ℤ) - (d₁.row.cumulativeCount : ℤ)
        ∧ d₂.newAdvanced
            = (d₂.row.cumulativeAdvanced : ℤ) - (d₁.row.cumulativeAdvanced : ℤ)
        ∧ d₂.newRejected
            = (d₂.row.cumulativeRejected : ℤ) - (d₁.row.cumulativeRejected : ℤ)
        ∧ d₂.newPending
            = (d₂.row.cumulativePending : ℤ) - (d₁.row.cumulativePending : ℤ))
      ((get_daily_new_applications rowsFourDays).filter (qSrc "a"))
    ∧ newCounts (get_daily_new_applications rowsFourDays) = [10, 15, 0, 15] :=
  ⟨(spec_c3 rowsFourDays "a" (by decide)).1,
    (spec_c3 rowsFourDays "a" (by decide)).2, by decide⟩

/-- C7 counterexample: the counter reset `[2^53 + 3, 0]` has exact delta
`-(2^53 + 3)`, but the float64 column stores `-(2^53 + 4)` — the negative
delta is not passed through unchanged on a loadable input (it is still
negative and not clamped, but rounded). -/
theorem spec_c7_cex :
    newCounts (get_daily_new_applications rowsNegRound)
      = [9007199254740996, -9007199254740996]
    ∧ (0 : Int) - ((2 ^ 53 + 3 : Nat) : Int) = -9007199254740995
    ∧ (-9007199254740996 : Int) ≠ -9007199254740995
    ∧ (-9007199254740996 : Int) < 0 := by
  refine ⟨by decide, by decide, by decide, by decide⟩

/-- C7 amended: provided every cumulative counter is below `2^53`, each
non-first delta is the raw difference of consecutive cumulative counts —
a decrease yields a strictly negative delta, passed through unchanged
(never clamped, and the function is total so nothing errors).  Beyond
`2^53` the float64 column rounds the stored delta, so "unchanged" fails
(see the counterexample). -/
theorem spec_c7 (rows : List DailyRow) (s : String)
    (hb : ∀ r ∈ rows, smallCums r) :
    List.Chain' (fun d₁ d₂ =>
        d₂.newCount = (d₂.row.cumulativeCount : ℤ) - (d₁.row.cumulativeCount : ℤ)
        ∧ (d₂.row.cumulativeCount < d₁.row.cumulativeCount → d₂.newCount < 0))
      ((get_daily_new_applications rows).filter (qSrc s)) := by
  rw [out_filter]
  apply chain'_discharge (fun d => smallCums d.row)
  · apply chain'_groupDeltas
    intro d cur hPd hPcur
    have hPc : smallCums cur := hPcur
    unfold smallCums at hPd hPc
    obtain ⟨a1, -, -, -⟩ := hPd
    obtain ⟨c1, -, -, -⟩ := hPc
    simp only [mkDiff]
    have heq : fl53I (fl53I (cur.cumulativeCount : Int)
          - fl53I (d.row.cumulativeCount : Int))
        = (cur.cumulativeCount : Int) - (d.row.cumulativeCount : Int) := by
      rw [fl53I_natCast c1, fl53I_natCast a1, fl53I_eq_self (by omega) (by omega)]
    refine ⟨heq, ?_⟩
    intro hlt
    rw [heq]
    omega
  · intro d hd
    exact hb d.row (mem_rows_of_mem_block hd)

theorem spec_c7_witness :
    List.Chain' (fun d₁ d₂ =>
        d₂.newCount = (d₂.row.cumulativeCount : ℤ) - (d₁.row.cumulativeCount : ℤ)
        ∧ (d₂.row.cumulativeCount < d₁.row.cumulativeCount → d₂.newCount < 0))
      ((get_daily_new_applications rowsCounterReset).filter (qSrc "a"))
    ∧ newCounts (get_daily_new_applications rowsCounterReset) = [30, -10]
    ∧ (-10 : ℤ) < 0 :=
  ⟨spec_c7 rowsCounterReset "a" (by decide), by decide, by decide⟩

/-- C6 amended: the output has exactly as many rows as the input, and every
(entity, date) pair occurs in the output exactly as often as in the input
(so exactly once whenever the input's pairs are distinct). -/
theorem spec_c6 (rows : List DailyRow) :
    (get_daily_new_applications rows).length = rows.length
    ∧ ((get_daily_new_applications rows).map pairOfDelta).Perm
        (rows.map pairOfDaily) := by
  have hperm := out_row_perm rows
  constructor
  · have hlen := hperm.length_eq
    rwa [List.length_map] at hlen
  · have h2 := hperm.map pairOfDaily
    rw [List.map_map] at h2
    exact h2

/-- C6 counterexample: with two input rows sharing the pair `("a", 1)`, that
pair — present in the input — occurs twice in the output, not exactly once. -/
theorem spec_c6_cex :
    (("a", 1) ∈ rowsDupPair.map pairOfDaily)
    ∧ ((get_daily_new_applications rowsDupPair).map pairOfDelta).count ("a", 1) = 2
    ∧ ((get_daily_new_applications rowsDupPair).map pairOfDelta).count ("a", 1) ≠ 1 := by
  refine ⟨by decide, by decide, by decide⟩


/-!
Traffic aggregation helper: `get_total_daily_traffic` (lines 154-170).
One row per (handle, date) of the daily PostHog table; `groupby('Date')`
sorts the distinct dates ascending and sums each metric column.
-/

structure TrafficRow where
  handle : String
  date : Nat
  events : Nat
  pageviews : Nat
  uniqueVisitors : Nat
  applyPageViews : Nat
  programPageViews : Nat
deriving DecidableEq

structure TrafficTotal where
  date : Nat
  events : Int
  pageviews : Int
  uniqueVisitors : Int
  applyPageViews : Int
  programPageViews : Int
deriving DecidableEq

def natLeB (a b : Nat) : Bool := decide (a ≤ b)

/-- `posthog_daily_df[posthog_daily_df['Handle'] != '(all)']`. -/
def keptTraffic (rows : List TrafficRow) : List TrafficRow :=
  rows.filter (fun r => !(r.handle == "(all)"))

/-- Embedding of `get_total_daily_traffic`: drop the `(all)` handle, group
the remaining rows by date (pandas `groupby` sorts the keys ascending) and
sum each metric column per date.  The groupby sum accumulates in int64 and
wraps silently, embedded as `wrap64` of the exact sum. -/
def get_total_daily_traffic (rows : List TrafficRow) : List TrafficTotal :=
  let df := keptTraffic rows
  (sortBy natLeB (pandasUnique (df.map TrafficRow.date))).map (fun d =>
    { date := d
      events := wrap64 (((df.filter (fun r => r.date == d)).map TrafficRow.events).sum)
      pageviews :=
        wrap64 (((df.filter (fun r => r.date == d)).map TrafficRow.pageviews).sum)
      uniqueVisitors :=
        wrap64 (((df.filter (fun r => r.date == d)).map TrafficRow.uniqueVisitors).sum)
      applyPageViews :=
        wrap64 (((df.filter (fun r => r.date == d)).map TrafficRow.applyPageViews).sum)
      programPageViews :=
        wrap64 (((df.filter (fun r => r.date == d)).map TrafficRow.programPageViews).sum) })

/-- Two rows on one date with `Events = 5 * 10^18` each (both loadable
int64 cells): the int64 groupby sum wraps to a negative total. -/
def trafficHuge : List TrafficRow :=
  [⟨"a", 1, 5000000000000000000, 0, 0, 0, 0⟩,
   ⟨"b", 1, 5000000000000000000, 0, 0, 0, 0⟩]

/-- C9 counterexample: on `trafficHuge` the exact `Events` sum for the one
date is `10^19`, but the code returns the wrapped int64 value
`-8446744073709551616` — a negative number, not the sum. -/
theorem spec_c9_cex :
    (get_total_daily_traffic trafficHuge).map TrafficTotal.events
      = [-8446744073709551616]
    ∧ ((keptTraffic trafficHuge).map TrafficRow.events).sum = 10000000000000000000
    ∧ ((-8446744073709551616 : Int) ≠ (10000000000000000000 : Int))
    ∧ ((-8446744073709551616 : Int) < 0) := by
  refine ⟨by decide, by decide, by decide, by decide⟩

/-- C9 amended: after removing the `(all)` rows, the output has one record
per distinct remaining date (no duplicates, and a date appears in the output
iff some remaining row bears it), and each record's metrics are the int64
accumulation (`wrap64`) of that metric over the remaining rows with that
date — equal to the exact sum whenever that sum is below `2^63`, and a
silently wrapped value otherwise (see the counterexample). -/
theorem spec_c9 (rows : List TrafficRow) :
    ((get_total_daily_traffic rows).map TrafficTotal.date).Nodup
    ∧ (∀ d : Nat, d ∈ (get_total_daily_traffic rows).map TrafficTotal.date
        ↔ d ∈ (keptTraffic rows).map TrafficRow.date)
    ∧ (∀ t ∈ get_total_daily_traffic rows,
        (t.events = wrap64 ((((keptTraffic rows).filter
              (fun r => r.date == t.date)).map TrafficRow.events).sum)
          ∧ ((((keptTraffic rows).filter
                (fun r => r.date == t.date)).map TrafficRow.events).sum < 2 ^ 63 →
              t.events = (((((keptTraffic rows).filter
                (fun r => r.date == t.date)).map TrafficRow.events).sum : Nat) : Int)))
        ∧ (t.pageviews = wrap64 ((((keptTraffic rows).filter
              (fun r => r.date == t.date)).map TrafficRow.pageviews).sum)
          ∧ ((((keptTraffic rows).filter
                (fun r => r.date == t.date)).map TrafficRow.pageviews).sum < 2 ^ 63 →
              t.pageviews = (((((keptTraffic rows).filter
                (fun r => r.date == t.date)).map TrafficRow.pageviews).sum : Nat) : Int)))
        ∧ (t.uniqueVisitors = wrap64 ((((keptTraffic rows).filter
              (fun r => r.date == t.date)).map TrafficRow.uniqueVisitors).sum)
          ∧ ((((keptTraffic rows).filter
                (fun r => r.date == t.date)).map TrafficRow.uniqueVisitors).sum < 2 ^ 63 →
              t.uniqueVisitors = (((((keptTraffic rows).filter
                (fun r => r.date == t.date)).map TrafficRow.uniqueVisitors).sum : Nat) : Int)))
        ∧ (t.applyPageViews = wrap64 ((((keptTraffic rows).filter
              (fun r => r.date == t.date)).map TrafficRow.applyPageViews).sum)
          ∧ ((((keptTraffic rows).filter
                (fun r => r.date == t.date)).map TrafficRow.applyPageViews).sum < 2 ^ 63 →
              t.applyPageViews = (((((keptTraffic rows).filter
                (fun r => r.date == t.date)).map TrafficRow.applyPageViews).sum : Nat) : Int)))
        ∧ (t.programPageViews = wrap64 ((((keptTraffic rows).filter
              (fun r => r.date == t.date)).map TrafficRow.programPageViews).sum)
          ∧ ((((keptTraffic rows).filter
                (fun r => r.date == t.date)).map TrafficRow.programPageViews).sum < 2 ^ 63 →
              t.programPageViews = (((((keptTraffic rows).filter
                (fun r => r.date == t.date)).map TrafficRow.programPageViews).sum : Nat) : Int)))) := by
  have hmk : ∀ (l : List Nat) (f : Nat → TrafficTotal), (∀ d, (f d).date = d) →
      (l.map f).map TrafficTotal.date = l := by
    intro l f hf
    induction l with
    | nil => rfl
    | cons d ds ih => simp [hf, ih]
  have hdates : (get_total_daily_traffic rows).map TrafficTotal.date
      = sortBy natLeB (pandasUnique ((keptTraffic rows).map TrafficRow.date)) := by
    simp only [get_total_daily_traffic]
    exact hmk _ _ (fun d => rfl)
  refine ⟨?_, ?_, ?_⟩
  · rw [hdates]
    exact ((sortBy_perm natLeB _).nodup_iff).mpr (nodup_pandasUnique _)
  · intro d
    rw [hdates, (sortBy_perm natLeB _).mem_iff, mem_pandasUnique]
  · intro t ht
    simp only [get_total_daily_traffic, List.mem_map] at ht
    obtain ⟨d, hd, rfl⟩ := ht
    exact ⟨⟨rfl, fun h => wrap64_eq_self h⟩, ⟨rfl, fun h => wrap64_eq_self h⟩,
      ⟨rfl, fun h => wrap64_eq_self h⟩, ⟨rfl, fun h => wrap64_eq_self h⟩,
      ⟨rfl, fun h => wrap64_eq_self h⟩⟩

def trafficRows : List TrafficRow :=
  [⟨"(all)", 1, 100, 100, 100, 100, 100⟩,
   ⟨"a", 1, 2, 3, 4, 5, 6⟩,
   ⟨"b", 1, 3, 4, 5, 6, 7⟩,
   ⟨"a", 2, 5, 5, 5, 5, 5⟩]

def trafficTotalDay1 : TrafficTotal := ⟨1, 5, 7, 9, 11, 13⟩

theorem spec_c9_witness :
    ((get_total_daily_traffic trafficRows).map TrafficTotal.date).Nodup
    ∧ ((1 : Nat) ∈ (get_total_daily_traffic trafficRows).map TrafficTotal.date
        ↔ (1 : Nat) ∈ (keptTraffic trafficRows).map TrafficRow.date)
    ∧ trafficTotalDay1 ∈ get_total_daily_traffic trafficRows
    ∧ (trafficTotalDay1.events = wrap64 ((((keptTraffic trafficRows).filter
          (fun r => r.date == trafficTotalDay1.date)).map TrafficRow.events).sum)
        ∧ trafficTotalDay1.pageviews = wrap64 ((((keptTraffic trafficRows).filter
          (fun r => r.date == trafficTotalDay1.date)).map TrafficRow.pageviews).sum)
        ∧ trafficTotalDay1.uniqueVisitors = wrap64 ((((keptTraffic trafficRows).filter
          (fun r => r.date == trafficTotalDay1.date)).map TrafficRow.uniqueVisitors).sum)
        ∧ trafficTotalDay1.applyPageViews = wrap64 ((((keptTraffic trafficRows).filter
          (fun r => r.date == trafficTotalDay1.date)).map TrafficRow.applyPageViews).sum)
        ∧ trafficTotalDay1.programPageViews = wrap64 ((((keptTraffic trafficRows).filter
          (fun r => r.date == trafficTotalDay1.date)).map TrafficRow.programPageViews).sum)) :=
  ⟨(spec_c9 trafficRows).1, (spec_c9 trafficRows).2.1 1, by decide,
    ((spec_c9 trafficRows).2.2 trafficTotalDay1 (by decide)).1.1,
    ((spec_c9 trafficRows).2.2 trafficTotalDay1 (by decide)).2.1.1,
    ((spec_c9 trafficRows).2.2 trafficTotalDay1 (by decide)).2.2.1.1,
    ((spec_c9 trafficRows).2.2 trafficTotalDay1 (by decide)).2.2.2.1.1,
    ((spec_c9 trafficRows).2.2 trafficTotalDay1 (by decide)).2.2.2.2.1⟩
